import Mathlib

/-!
Verification of the ranking core and interface glue of `gratflix.py`.

The program aggregates movie-search results from configurable websites and
ranks them by edit distance between the normalized query and the normalized
result titles.  This file gives a shallow embedding of the pure core
(`levenshteinDistance`, `normalize`, `sortResults`), of the error behaviour
of the scraper `search`, and of the site-index dispatch in `main`, and
proves or refutes the specified properties.

Layout: all definitions first, then all theorems.
-/

set_option linter.unusedSectionVars false

namespace Gratflix

/-- A Python string, modelled as its list of Unicode scalar values. -/
abbrev PyStr := List Char

variable {α : Type} [DecidableEq α]

/-! ## Definitions

### The classic Levenshtein distance (reference definition)

`lev` is the textbook recurrence for edit distance, written with a nested
helper so that it is structurally recursive (and hence computable by
`decide`).  It is the reference point against which the source's dynamic
program is verified. -/

/-- Helper for `lev`: given `f = lev s`, computes `lev (a :: s)`. -/
def levAux (f : List α → Nat) (a : α) : List α → Nat
  | [] => f [] + 1
  | b :: t => if a = b then f t else 1 + min (f t) (min (f (b :: t)) (levAux f a t))

/-- Classic Levenshtein recurrence (textbook definition of edit distance). -/
def lev : List α → List α → Nat
  | [], t => t.length
  | a :: s, t => levAux (lev s) a t

/-! ### The source's dynamic program (`levenshteinDistance` in gratflix.py)

```
def levenshteinDistance(s1, s2):
    if len(s1) > len(s2):
        s1, s2 = s2, s1
    distances = range(len(s1) + 1)
    for i2, c2 in enumerate(s2):
        distances_ = [i2+1]
        for i1, c1 in enumerate(s1):
            if c1 == c2:
                distances_.append(distances[i1])
            else:
                distances_.append(
                    1 + min((distances[i1], distances[i1 + 1], distances_[-1])))
        distances = distances_
    return distances[-1]
```
-/

/-- Inner loop `for i1, c1 in enumerate(s1)`: walks `s1` together with the
adjacent pairs `distances[i1], distances[i1 + 1]` of the previous row,
carrying `distances_[-1]` (the cell just written) in `last`, and returns the
cells appended after the initial `i2 + 1`.  The catch-all branch is never
reached on the lengths arising in `levenshteinDistance`. -/
def buildRow (c2 : α) : List α → List Nat → Nat → List Nat
  | c1 :: s1, d0 :: d1 :: rest, last =>
    let v := if c1 = c2 then d0 else 1 + min d0 (min d1 last)
    v :: buildRow c2 s1 (d1 :: rest) v
  | _, _, _ => []

/-- Outer loop `for i2, c2 in enumerate(s2)`: each iteration replaces
`distances` by `[i2+1] ++` the cells produced by the inner loop. -/
def outerLoop (s1 : List α) : List α → Nat → List Nat → List Nat
  | [], _, distances => distances
  | c2 :: s2, i2, distances =>
      outerLoop s1 s2 (i2 + 1) ((i2 + 1) :: buildRow c2 s1 distances (i2 + 1))

/-- `levenshteinDistance` from gratflix.py: swap the operands when the first
is longer, run the row dynamic program, and return `distances[-1]` (the row
is provably nonempty, so `getLast?.getD 0` is exactly the last element). -/
def levenshteinDistance (a b : List α) : Nat :=
  let p := if a.length > b.length then (b, a) else (a, b)
  (outerLoop p.1 p.2 0 (List.range (p.1.length + 1))).getLast?.getD 0

/-! ### Edit operations, edit sequences and edit scripts

`Edit s t` holds when `t` is obtained from `s` by one single-character
insertion, deletion or substitution, at any position.  `EditSeq s t n` holds
when `s` can be transformed into `t` by a sequence of exactly `n` such
single-character edits.  This is the formal reading of "minimum number of
single-character insertions, deletions, and substitutions needed to
transform one string into another". -/

/-- One single-character edit at an arbitrary position. -/
inductive Edit : List α → List α → Prop where
  | ins (u v : List α) (c : α) : Edit (u ++ v) (u ++ c :: v)
  | del (u v : List α) (c : α) : Edit (u ++ c :: v) (u ++ v)
  | subst (u v : List α) (x y : α) : Edit (u ++ x :: v) (u ++ y :: v)

/-- `EditSeq s t n`: `s` is transformed into `t` by `n` successive
single-character edits. -/
inductive EditSeq : List α → List α → Nat → Prop where
  | refl (s : List α) : EditSeq s s 0
  | step {s t u : List α} {n : Nat} : Edit s t → EditSeq t u n → EditSeq s u (n + 1)

/-- `EditScript s t n`: an alignment of `s` with `t` using `n` charged edit
operations (copies are free; substitutions, insertions and deletions cost
one each), processed left to right.  Every script is realisable as an
`EditSeq` of the same cost. -/
inductive EditScript : List α → List α → Nat → Prop where
  | nil : EditScript [] [] 0
  | copy (c : α) {s t : List α} {n : Nat} :
      EditScript s t n → EditScript (c :: s) (c :: t) n
  | subst (x y : α) {s t : List α} {n : Nat} :
      EditScript s t n → EditScript (x :: s) (y :: t) (n + 1)
  | ins (y : α) {s t : List α} {n : Nat} :
      EditScript s t n → EditScript s (y :: t) (n + 1)
  | del (x : α) {s t : List α} {n : Nat} :
      EditScript s t n → EditScript (x :: s) t (n + 1)

/-- The intended content of the `distances` row while the prefix `q` of `s2`
has been consumed: the distances from each prefix of `s1` (split as the
consumed part `p` and the rest `u`) to `q`. -/
def rowFrom (q : List α) : List α → List α → List Nat
  | p, [] => [lev p q]
  | p, c :: u => lev p q :: rowFrom q (p ++ [c]) u

/-! ### `normalize` and its Unicode environment

`normalize` calls four library primitives: `re.sub('[\W_]+', '', ·)`,
`unicodedata.normalize('NFKD', ·)`, `str.encode('ASCII', 'ignore')` and
`bytes.lower`.  The first two depend on the Unicode character database; they
are modelled below exactly on ASCII and on the non-ASCII characters
exercised in this development. -/

/-- Model of Python's `str.isalnum`, the character class kept by `re`'s
`\w` besides the underscore (CPython's `\w` is `isalnum` plus `_`).  Exact
on ASCII; beyond ASCII it is defined for the non-ASCII characters exercised
in this development: `é` (U+00E9, a lowercase letter) and `⑴` (U+2474,
PARENTHESIZED DIGIT ONE, a numeric character, for which `isnumeric()` and
hence `isalnum()` is true); all other code points are treated as non-word
characters (no statement below depends on them). -/
def pyIsAlnum (c : Char) : Bool :=
  -- 97-122 = a-z, 65-90 = A-Z, 48-57 = 0-9
  decide ((97 ≤ c.toNat ∧ c.toNat ≤ 122) ∨ (65 ≤ c.toNat ∧ c.toNat ≤ 90) ∨
    (48 ≤ c.toNat ∧ c.toNat ≤ 57) ∨ c = 'é' ∨ c = '⑴')

/-- Model of `unicodedata.normalize('NFKD', ·)`, per character.  ASCII code
points have no decomposition.  `é` decomposes canonically into `e` followed
by U+0301 COMBINING ACUTE ACCENT; `⑴` has the compatibility decomposition
`(1)` (U+0028, U+0031, U+0029).  Other code points are left alone (no
statement below depends on them).  NFKD's canonical reordering of combining
marks never fires on the strings considered here, so per-character
decomposition concatenated is exact for them. -/
def nfkd (c : Char) : List Char :=
  if c.toNat < 128 then [c]
  else if c = 'é' then ['e', Char.ofNat 0x301]
  else if c = '⑴' then ['(', '1', ')']
  else [c]

/-- `bytes.lower`: ASCII lowercasing (the bytes it is applied to are all
ASCII, having been produced by `.encode('ASCII', 'ignore')`). -/
def asciiLower (c : Char) : Char :=
  -- 65-90 = A-Z; adding 32 maps A-Z onto a-z
  if 65 ≤ c.toNat ∧ c.toNat ≤ 90 then Char.ofNat (c.toNat + 32) else c

/-- `normalize` from gratflix.py:
```
def normalize(story: str):
    story = re.sub('[\W_]+', '', story)
    return unicodedata.normalize('NFKD', story).encode('ASCII', 'ignore').lower()
```
`re.sub('[\W_]+', '', ·)` keeps exactly the word characters other than `_`,
i.e. the alphanumeric characters; NFKD decomposes each kept character;
`.encode('ASCII', 'ignore')` drops every code point ≥ 128; `.lower()`
lowercases the resulting ASCII bytes.  The returned bytes are identified
with the ASCII characters they encode. -/
def normalize (story : PyStr) : PyStr :=
  let stripped := story.filter (fun c => pyIsAlnum c && c != '_')
  let decomposed := (stripped.map nfkd).flatten
  let ascii := decomposed.filter (fun c => c.toNat < 128)
  ascii.map asciiLower

/-- ASCII lowercase-alphanumeric test, used to state the spec's description
of `normalize`'s output alphabet. -/
def isLowerAlnumAscii (c : Char) : Bool :=
  -- 97-122 = a-z, 48-57 = 0-9
  decide ((97 ≤ c.toNat ∧ c.toNat ≤ 122) ∨ (48 ≤ c.toNat ∧ c.toNat ≤ 57))

/-! ### `SearchResult` and `sortResults` -/

/-- `SearchResult` from gratflix.py: a single movie. -/
structure SearchResult where
  title : PyStr
  URL : PyStr
deriving DecidableEq

/-- The relevance score `sortResults` computes for one result. -/
def score (story : PyStr) (r : SearchResult) : Nat :=
  levenshteinDistance (normalize story) (normalize r.title)

/-- `sortResults` from gratflix.py:
```
storyNorm = normalize(story)
distances = []
for result in results:
    distances.append(levenshteinDistance(storyNorm, normalize(result.title)))
return [x for _, x in sorted(zip(distances, results), key=lambda pair: pair[0])]
```
`sorted` with key `pair[0]` is Python's stable sort of the zipped pairs on
the first component; any two stable sorts agree, so it is modelled by the
Lean library's stable `mergeSort` under `p.1 ≤ q.1`. -/
def sortResults (story : PyStr) (results : List SearchResult) : List SearchResult :=
  let storyNorm := normalize story
  let distances := results.map (fun r => levenshteinDistance storyNorm (normalize r.title))
  ((distances.zip results).mergeSort (fun p q => p.1 ≤ q.1)).map (fun p => p.2)

/-! ### The scraper `search`, abstracted at the library boundary -/

/-- Exceptions relevant to `search`. -/
inductive PyError where
  /-- a non-timeout transport failure raised by `requests.get` -/
  | requestsError
  /-- `link['href']` with `link is None` -/
  | typeError
  /-- `title.text` with `title is None` -/
  | attributeError
deriving DecidableEq

/-- One element matched by `config.itemSelector`, abstracted to what
`search` reads from it: the `href` of `item.select_one(config.linkSelector)`
(`none` when that selector matches nothing within the item) and the text of
`item.select_one(config.titleSelector)` (`none` likewise). -/
structure ScrapedItem where
  link : Option PyStr
  title : Option PyStr
deriving DecidableEq

/-- Outcome of `requests.get(searchURL, ...)`, abstracted to the cases
`search` distinguishes: the request timed out
(`requests.exceptions.Timeout`), it raised some other transport-level
exception, or a response arrived whose parsed HTML yields the given list of
items for `config.itemSelector` (an HTTP error status does not raise in
`requests`; it is a response, typically yielding no items). -/
inductive FetchResult where
  | timeout
  | failure
  | page (items : List ScrapedItem)
deriving DecidableEq

/-- The result-extraction loop of `search`, parametrized by models of
`isAbsolute` (`isAbs`) and `urllib.parse.urljoin` (`join`):
```
for item in soup.select(config.itemSelector):
    link = item.select_one(config.linkSelector)
    title = item.select_one(config.titleSelector)
    movieURL = link['href']
    if not isAbsolute(movieURL):
        movieURL = urljoin(config.URL, movieURL)
    results.append(SearchResult(title.text, movieURL))
```
`link['href']` raises `TypeError` when `link` is `None`, and `title.text`
raises `AttributeError` when `title` is `None`; either aborts `search`. -/
def scrapeItems (isAbs : PyStr → Bool) (join : PyStr → PyStr → PyStr)
    (baseURL : PyStr) : List ScrapedItem → Except PyError (List SearchResult)
  | [] => .ok []
  | item :: rest =>
    match item.link with
    | none => .error .typeError
    | some href =>
      match item.title with
      | none => .error .attributeError
      | some t =>
        let movieURL := if isAbs href then href else join baseURL href
        (scrapeItems isAbs join baseURL rest).map (fun rs => ⟨t, movieURL⟩ :: rs)

/-- `search` from gratflix.py, reduced to its control flow on the fetch
outcome:
```
try:
    data = requests.get(searchURL, headers=headers, timeout=1)
except requests.exceptions.Timeout:
    return []
soup = BeautifulSoup(data.text, 'html.parser')
results = []
for item in soup.select(config.itemSelector): ...
return results
```
Only `requests.exceptions.Timeout` is caught and turned into `[]`; any
other exception propagates out of `search` (modelled as `.error`). -/
def search (isAbs : PyStr → Bool) (join : PyStr → PyStr → PyStr)
    (baseURL : PyStr) : FetchResult → Except PyError (List SearchResult)
  | .timeout => .ok []
  | .failure => .error .requestsError
  | .page items => scrapeItems isAbs join baseURL items

/-! ### The site-index dispatch of `main` -/

/-- Outcome of the `args.site` branch of `main`. -/
inductive SiteOutcome where
  /-- prints `Website index out of bounds` and returns before any search
  and before the ranking core runs -/
  | outOfBoundsReport
  /-- proceeds to `search(story, configs[args.site])`, where `idx` is the
  position actually selected in `configs`, and then to ranking -/
  | searched (idx : Nat)
  /-- `configs[args.site]` raises `IndexError` -/
  | indexError
deriving DecidableEq

/-- The site-index dispatch of `main` (gratflix.py lines 179-184):
```
if args.site is not None:
    if args.site >= len(configs):
        print('Website index out of bounds')
        return
    results = search(story, configs[args.site])
```
`args.site` is parsed with `type=int`, so it can be negative;
`configs[args.site]` follows Python list indexing, where a negative index
`i` with `-n ≤ i` selects position `n + i` and `i < -n` raises
`IndexError`.  `n` is `len(configs)`. -/
def siteSelect (site : Int) (n : Nat) : SiteOutcome :=
  if (n : Int) ≤ site then .outOfBoundsReport
  else if 0 ≤ site then .searched site.toNat
  else if 0 ≤ site + n then .searched (site + n).toNat
  else .indexError

/-! ## Theorems

### Basic facts about `lev` -/

@[simp] theorem lev_nil_left (t : List α) : lev [] t = t.length := rfl

@[simp] theorem lev_nil_right (s : List α) : lev s [] = s.length := by
  induction s with
  | nil => rfl
  | cons a s ih => simp [lev, levAux, ih]

theorem lev_cons_cons (a b : α) (s t : List α) :
    lev (a :: s) (b :: t) =
      if a = b then lev s t
      else 1 + min (lev s t) (min (lev s (b :: t)) (lev (a :: s) t)) := rfl

@[simp] theorem lev_self (a : List α) : lev a a = 0 := by
  induction a with
  | nil => rfl
  | cons x s ih => rw [lev_cons_cons, if_pos rfl, ih]

theorem lev_symm : ∀ (a b : List α), lev a b = lev b a
  | [], t => by simp
  | a :: s, [] => by simp
  | a :: s, b :: t => by
    rw [lev_cons_cons, lev_cons_cons]
    rcases eq_or_ne a b with h | h
    · rw [if_pos h, if_pos h.symm, lev_symm s t]
    · rw [if_neg h, if_neg (Ne.symm h),
        lev_symm s t, lev_symm s (b :: t), lev_symm (a :: s) t]
      omega
termination_by a b => a.length + b.length

/-- Inserting a character in front of the second operand, or removing it,
changes the distance by at most one (both directions, proved jointly by
strong induction on the total length). -/
theorem lev_cons_right_bounds :
    ∀ (N : Nat) (a b : List α) (y : α), a.length + b.length ≤ N →
      lev a (y :: b) ≤ 1 + lev a b ∧ lev a b ≤ 1 + lev a (y :: b) := by
  intro N
  induction N with
  | zero =>
    intro a b y h
    have ha : a = [] := List.length_eq_zero.mp (by omega)
    have hb : b = [] := List.length_eq_zero.mp (by omega)
    subst ha; subst hb; simp
  | succ N ih =>
    intro a b y h
    match a with
    | [] => constructor <;> simp <;> omega
    | x :: s =>
      constructor
      · rw [lev_cons_cons]
        by_cases hxy : x = y
        · rw [if_pos hxy]
          have h2 := (ih b s x (by simp at h ⊢; omega)).2
          rw [lev_symm b s, lev_symm b (x :: s)] at h2
          omega
        · rw [if_neg hxy]
          omega
      · rw [lev_cons_cons]
        by_cases hxy : x = y
        · rw [if_pos hxy]
          have h1 := (ih b s x (by simp at h ⊢; omega)).1
          rw [lev_symm b (x :: s), lev_symm b s] at h1
          omega
        · rw [if_neg hxy]
          have hA := (ih b s x (by simp at h ⊢; omega)).1
          rw [lev_symm b (x :: s), lev_symm b s] at hA
          have hB := (ih s b y (by simp at h ⊢; omega)).2
          omega

theorem lev_ins_right_le (a b : List α) (y : α) : lev a (y :: b) ≤ 1 + lev a b :=
  (lev_cons_right_bounds (a.length + b.length) a b y le_rfl).1

theorem lev_le_ins_right (a b : List α) (y : α) : lev a b ≤ 1 + lev a (y :: b) :=
  (lev_cons_right_bounds (a.length + b.length) a b y le_rfl).2

theorem lev_ins_left_le (a b : List α) (x : α) : lev (x :: a) b ≤ 1 + lev a b := by
  rw [lev_symm (x :: a) b, lev_symm a b]; exact lev_ins_right_le b a x

theorem lev_le_ins_left (a b : List α) (x : α) : lev a b ≤ 1 + lev (x :: a) b := by
  rw [lev_symm a b, lev_symm (x :: a) b]; exact lev_le_ins_right b a x

/-- Substituting the head of the first operand changes the distance by at
most one. -/
theorem lev_substHead_le (a c : α) (v : List α) :
    ∀ (b : List α), lev (a :: v) b ≤ 1 + lev (c :: v) b := by
  intro b
  induction b with
  | nil => simp
  | cons y t ih =>
    rw [lev_cons_cons, lev_cons_cons]
    by_cases hay : a = y <;> by_cases hcy : c = y
    · rw [if_pos hay, if_pos hcy]; omega
    · rw [if_pos hay, if_neg hcy]
      have h1 := lev_le_ins_right v t y
      have h2 := lev_le_ins_left v t c
      omega
    · rw [if_neg hay, if_pos hcy]
      omega
    · rw [if_neg hay, if_neg hcy]
      omega

/-- If `lev X ·` is pointwise within `k` of `lev Y ·`, the same holds after
consing the same character onto both. -/
theorem lev_cons_mono {X Y : List α} {k : Nat} (h : ∀ b, lev X b ≤ k + lev Y b)
    (d : α) : ∀ (b : List α), lev (d :: X) b ≤ k + lev (d :: Y) b := by
  intro b
  induction b with
  | nil =>
    have := h []
    simp at this ⊢
    omega
  | cons y t ih =>
    rw [lev_cons_cons, lev_cons_cons]
    by_cases hdy : d = y
    · rw [if_pos hdy, if_pos hdy]; exact h t
    · rw [if_neg hdy, if_neg hdy]
      have h1 := h t
      have h2 := h (y :: t)
      omega

/-- Inserting a character anywhere in the first operand lowers the distance
by at most one. -/
theorem lev_ins_mid_le :
    ∀ (u v b : List α) (c : α), lev (u ++ v) b ≤ 1 + lev (u ++ c :: v) b
  | [], v, b, c => lev_le_ins_left v b c
  | d :: u, v, b, c =>
    lev_cons_mono (fun b' => lev_ins_mid_le u v b' c) d b

/-- Deleting a character anywhere in the first operand lowers the distance
by at most one. -/
theorem lev_del_mid_le :
    ∀ (u v b : List α) (c : α), lev (u ++ c :: v) b ≤ 1 + lev (u ++ v) b
  | [], v, b, c => lev_ins_left_le v b c
  | d :: u, v, b, c =>
    lev_cons_mono (fun b' => lev_del_mid_le u v b' c) d b

/-- Substituting a character anywhere in the first operand changes the
distance by at most one. -/
theorem lev_subst_mid_le :
    ∀ (u v b : List α) (x y : α), lev (u ++ x :: v) b ≤ 1 + lev (u ++ y :: v) b
  | [], v, b, x, y => lev_substHead_le x y v b
  | d :: u, v, b, x, y =>
    lev_cons_mono (fun b' => lev_subst_mid_le u v b' x y) d b

/-! ### `lev` is the minimum number of edits -/

/-- A single edit changes `lev · b` by at most one. -/
theorem lev_edit {s t : List α} (h : Edit s t) (b : List α) :
    lev s b ≤ 1 + lev t b := by
  cases h with
  | ins u v c => exact lev_ins_mid_le u v b c
  | del u v c => exact lev_del_mid_le u v b c
  | subst u v x y => exact lev_subst_mid_le u v b x y

/-- Lower bound: no sequence of edits transforming `s` into `u` is shorter
than `lev s u`. -/
theorem lev_le_editSeq {s u : List α} {n : Nat} (h : EditSeq s u n) :
    lev s u ≤ n := by
  induction h with
  | refl s => simp
  | @step s t u n e _ ih =>
    have := lev_edit e u
    omega

/-- A single edit can be performed below a common head character. -/
theorem edit_cons {s t : List α} (c : α) (h : Edit s t) : Edit (c :: s) (c :: t) := by
  cases h with
  | ins u v x => exact Edit.ins (c :: u) v x
  | del u v x => exact Edit.del (c :: u) v x
  | subst u v x y => exact Edit.subst (c :: u) v x y

/-- An edit sequence can be performed below a common head character. -/
theorem editSeq_cons {s t : List α} {n : Nat} (c : α) (h : EditSeq s t n) :
    EditSeq (c :: s) (c :: t) n := by
  induction h with
  | refl s => exact .refl (c :: s)
  | step e _ ih => exact .step (edit_cons c e) ih

/-- Every edit script is realisable as a sequence of single-character edits
of the same cost. -/
theorem editScript_editSeq {s t : List α} {n : Nat} (h : EditScript s t n) :
    EditSeq s t n := by
  induction h with
  | nil => exact .refl []
  | copy c _ ih => exact editSeq_cons c ih
  | @subst x y s t n _ ih => exact .step (Edit.subst [] s x y) (editSeq_cons y ih)
  | @ins y s t n _ ih => exact .step (Edit.ins [] s y) (editSeq_cons y ih)
  | @del x s t n _ ih => exact .step (Edit.del [] s x) ih

theorem editScript_nil_left : ∀ (b : List α), EditScript ([] : List α) b b.length
  | [] => .nil
  | c :: b => .ins c (editScript_nil_left b)

theorem editScript_nil_right : ∀ (a : List α), EditScript a ([] : List α) a.length
  | [] => .nil
  | c :: a => .del c (editScript_nil_right a)

/-- Achievability: `lev a b` edits suffice to transform `a` into `b`. -/
theorem editScript_lev : ∀ (a b : List α), EditScript a b (lev a b)
  | [], b => by simpa using editScript_nil_left b
  | a :: s, [] => by simpa using editScript_nil_right (a :: s)
  | a :: s, b :: t => by
    rw [lev_cons_cons]
    by_cases hab : a = b
    · rw [if_pos hab]; subst hab; exact .copy a (editScript_lev s t)
    · rw [if_neg hab]
      rcases Nat.le_total (lev s t) (min (lev s (b :: t)) (lev (a :: s) t)) with h | h
      · rw [Nat.min_eq_left h, Nat.add_comm]
        exact .subst a b (editScript_lev s t)
      · rw [Nat.min_eq_right h]
        rcases Nat.le_total (lev s (b :: t)) (lev (a :: s) t) with h' | h'
        · rw [Nat.min_eq_left h', Nat.add_comm]
          exact .del a (editScript_lev s (b :: t))
        · rw [Nat.min_eq_right h', Nat.add_comm]
          exact .ins b (editScript_lev (a :: s) t)
termination_by a b => a.length + b.length

/-- `lev a b` is the least number of single-character edits transforming
`a` into `b`. -/
theorem lev_isLeast_editSeq (a b : List α) :
    IsLeast {n | EditSeq a b n} (lev a b) :=
  ⟨editScript_editSeq (editScript_lev a b), fun _ hn => lev_le_editSeq hn⟩

/-- `lev a b` is also the least cost of an edit script. -/
theorem lev_isLeast_editScript (a b : List α) :
    IsLeast {n | EditScript a b n} (lev a b) :=
  ⟨editScript_lev a b, fun _ hn => lev_le_editSeq (editScript_editSeq hn)⟩

/-- Edit scripts compose componentwise over list append. -/
theorem editScript_append {a b c d : List α} {n m : Nat}
    (h1 : EditScript a b n) (h2 : EditScript c d m) :
    EditScript (a ++ c) (b ++ d) (n + m) := by
  induction h1 with
  | nil => simpa using h2
  | copy x _ ih => exact .copy x ih
  | @subst x y s t k _ ih =>
    rw [show k + 1 + m = k + m + 1 by omega]
    exact .subst x y ih
  | @ins y s t k _ ih =>
    rw [show k + 1 + m = k + m + 1 by omega]
    exact .ins y ih
  | @del x s t k _ ih =>
    rw [show k + 1 + m = k + m + 1 by omega]
    exact .del x ih

/-- Reversing both strings preserves edit scripts. -/
theorem editScript_reverse {a b : List α} {n : Nat} (h : EditScript a b n) :
    EditScript a.reverse b.reverse n := by
  induction h with
  | nil => exact .nil
  | @copy c s t k _ ih =>
    rw [List.reverse_cons, List.reverse_cons]
    simpa using editScript_append ih (EditScript.copy c .nil)
  | @subst x y s t k _ ih =>
    rw [List.reverse_cons, List.reverse_cons]
    simpa using editScript_append ih (EditScript.subst x y .nil)
  | @ins y s t k _ ih =>
    rw [List.reverse_cons]
    simpa using editScript_append ih (EditScript.ins y .nil)
  | @del x s t k _ ih =>
    rw [List.reverse_cons]
    simpa using editScript_append ih (EditScript.del x .nil)

/-- Levenshtein distance is invariant under reversing both strings. -/
theorem lev_reverse (a b : List α) : lev a.reverse b.reverse = lev a b := by
  have h2 := lev_isLeast_editScript a.reverse b.reverse
  have hset : {n | EditScript a.reverse b.reverse n} = {n | EditScript a b n} := by
    ext n
    constructor
    · intro h; simpa using editScript_reverse h
    · exact editScript_reverse
  rw [hset] at h2
  exact h2.unique (lev_isLeast_editScript a b)

/-- The Levenshtein recurrence on the last characters of both strings; this
is the form used cell by cell in the dynamic program. -/
theorem lev_snoc_snoc (p q : List α) (c c2 : α) :
    lev (p ++ [c]) (q ++ [c2]) =
      if c = c2 then lev p q
      else 1 + min (lev p q) (min (lev p (q ++ [c2])) (lev (p ++ [c]) q)) := by
  have hmain : lev (p ++ [c]) (q ++ [c2]) = lev (c :: p.reverse) (c2 :: q.reverse) := by
    rw [← lev_reverse (c :: p.reverse) (c2 :: q.reverse)]
    simp
  have e1 : lev p.reverse q.reverse = lev p q := lev_reverse p q
  have e2 : lev p.reverse (c2 :: q.reverse) = lev p (q ++ [c2]) := by
    rw [← lev_reverse p (q ++ [c2])]
    simp
  have e3 : lev (c :: p.reverse) q.reverse = lev (p ++ [c]) q := by
    rw [← lev_reverse (p ++ [c]) q]
    simp
  rw [hmain, lev_cons_cons, e1, e2, e3]

/-! ### Correctness of the dynamic program -/

theorem rowFrom_cons_shape (q p u : List α) :
    ∃ r, rowFrom q p u = lev p q :: r := by
  cases u <;> exact ⟨_, rfl⟩

/-- Before the outer loop runs, the row for `q = []` is `range (len s1 + 1)`. -/
theorem rowFrom_nil_q :
    ∀ (u p : List α), rowFrom ([] : List α) p u = List.range' p.length (u.length + 1)
  | [], p => by simp [rowFrom]
  | c :: u, p => by
    show lev p [] :: rowFrom [] (p ++ [c]) u = _
    rw [rowFrom_nil_q u (p ++ [c])]
    simp only [List.length_cons]
    rw [List.range'_succ p.length (u.length + 1) 1]
    simp

/-- The last entry of the row is the distance from all of `s1` to `q`. -/
theorem rowFrom_getLast (q : List α) :
    ∀ (u p : List α), (rowFrom q p u).getLast? = some (lev (p ++ u) q)
  | [], p => by simp [rowFrom]
  | c :: u, p => by
    obtain ⟨r, hr⟩ := rowFrom_cons_shape q (p ++ [c]) u
    calc (rowFrom q p (c :: u)).getLast?
        = (lev p q :: rowFrom q (p ++ [c]) u).getLast? := rfl
      _ = (rowFrom q (p ++ [c]) u).getLast? := by
          rw [hr]; exact List.getLast?_cons_cons
      _ = some (lev ((p ++ [c]) ++ u) q) := rowFrom_getLast q u (p ++ [c])
      _ = some (lev (p ++ c :: u) q) := by simp

/-- One pass of the inner loop turns the row for `q` into the row for
`q ++ [c2]` (minus its head `i2 + 1`, which the outer loop prepends). -/
theorem buildRow_spec (c2 : α) (q : List α) :
    ∀ (u p : List α),
      buildRow c2 u (rowFrom q p u) (lev p (q ++ [c2])) =
        (rowFrom (q ++ [c2]) p u).tail
  | [], _ => rfl
  | c :: u, p => by
    obtain ⟨r, hr⟩ := rowFrom_cons_shape q (p ++ [c]) u
    have hv : (if c = c2 then lev p q
        else 1 + min (lev p q) (min (lev (p ++ [c]) q) (lev p (q ++ [c2])))) =
        lev (p ++ [c]) (q ++ [c2]) := by
      rw [lev_snoc_snoc]
      by_cases h : c = c2
      · simp [h]
      · rw [if_neg h, if_neg h]; omega
    have step1 : rowFrom q p (c :: u) = lev p q :: (lev (p ++ [c]) q :: r) := by
      show lev p q :: rowFrom q (p ++ [c]) u = _
      rw [hr]
    rw [step1]
    show (if c = c2 then lev p q
        else 1 + min (lev p q) (min (lev (p ++ [c]) q) (lev p (q ++ [c2])))) ::
      buildRow c2 u (lev (p ++ [c]) q :: r)
        (if c = c2 then lev p q
          else 1 + min (lev p q) (min (lev (p ++ [c]) q) (lev p (q ++ [c2])))) = _
    rw [hv, ← hr, buildRow_spec c2 q u (p ++ [c])]
    obtain ⟨r2, hr2⟩ := rowFrom_cons_shape (q ++ [c2]) (p ++ [c]) u
    show _ = rowFrom (q ++ [c2]) (p ++ [c]) u
    rw [hr2]
    simp

/-- Invariant of the outer loop: starting from the row for `q` with counter
`i2 = q.length`, consuming `s2` yields the row for `q ++ s2`. -/
theorem outerLoop_inv (s1 : List α) :
    ∀ (s2 q : List α),
      outerLoop s1 s2 q.length (rowFrom q [] s1) = rowFrom (q ++ s2) [] s1
  | [], q => by simp [outerLoop]
  | c2 :: s2, q => by
    show outerLoop s1 s2 (q.length + 1)
      ((q.length + 1) :: buildRow c2 s1 (rowFrom q [] s1) (q.length + 1)) = _
    have hlast : q.length + 1 = lev ([] : List α) (q ++ [c2]) := by simp
    have hrow : (q.length + 1) :: buildRow c2 s1 (rowFrom q [] s1) (q.length + 1) =
        rowFrom (q ++ [c2]) [] s1 := by
      rw [hlast, buildRow_spec c2 q s1 []]
      obtain ⟨r, hr⟩ := rowFrom_cons_shape (q ++ [c2]) [] s1
      rw [hr]
      simp
    rw [hrow, show q.length + 1 = (q ++ [c2]).length by simp,
      outerLoop_inv s1 s2 (q ++ [c2])]
    simp

/-- The dynamic program of the source computes the classic Levenshtein
distance. -/
theorem levenshteinDistance_eq_lev (a b : List α) :
    levenshteinDistance a b = lev a b := by
  have key : ∀ (s1 s2 : List α),
      (outerLoop s1 s2 0 (List.range (s1.length + 1))).getLast?.getD 0 =
        lev s1 s2 := by
    intro s1 s2
    have h0 : List.range (s1.length + 1) = rowFrom [] [] s1 := by
      rw [rowFrom_nil_q s1 []]
      simp [List.range_eq_range']
    rw [h0, show (0 : Nat) = ([] : List α).length from rfl,
      outerLoop_inv s1 s2 [], rowFrom_getLast]
    simp [lev_symm]
  unfold levenshteinDistance
  by_cases h : a.length > b.length
  · rw [if_pos h]
    rw [key b a, lev_symm b a]
  · rw [if_neg h]
    exact key a b

/-! ### An upper bound for `lev` -/

/-- `lev` never exceeds the length of the longer string. -/
theorem lev_le_max : ∀ (a b : List α), lev a b ≤ max a.length b.length
  | [], b => by simp
  | a :: s, [] => by simp
  | a :: s, b :: t => by
    rw [lev_cons_cons]
    have ih := lev_le_max s t
    by_cases h : a = b
    · rw [if_pos h]
      simp only [List.length_cons]
      omega
    · rw [if_neg h]
      simp only [List.length_cons]
      omega

/-! ### Facts about `normalize` -/

theorem toNat_ofNat_valid {n : Nat} (h : n < 55296) : (Char.ofNat n).toNat = n := by
  rw [Char.ofNat, dif_pos (Or.inl h)]
  rfl

theorem asciiLower_toNat (c : Char) :
    (asciiLower c).toNat =
      if 65 ≤ c.toNat ∧ c.toNat ≤ 90 then c.toNat + 32 else c.toNat := by
  unfold asciiLower
  by_cases h : 65 ≤ c.toNat ∧ c.toNat ≤ 90
  · rw [if_pos h, if_pos h, toNat_ofNat_valid (by omega)]
  · rw [if_neg h, if_neg h]

/-- `normalize` distributes over `cons`: the head character contributes a
(possibly empty) block in front of the normalization of the tail. -/
theorem normalize_cons (c : Char) (l : PyStr) :
    normalize (c :: l) =
      (if (pyIsAlnum c && c != '_') = true
        then ((nfkd c).filter (fun d => d.toNat < 128)).map asciiLower
        else []) ++ normalize l := by
  unfold normalize
  by_cases h : (pyIsAlnum c && c != '_') = true
  · simp [h, List.filter_cons]
  · simp [h, List.filter_cons]

/-- Every character of `normalize`'s output is ASCII (code point < 128),
for arbitrary input: `.encode('ASCII', 'ignore')` drops everything else and
`.lower()` keeps ASCII inside ASCII. -/
theorem normalize_output_ascii :
    ∀ (s : PyStr), ∀ c ∈ normalize s, c.toNat < 128 := by
  intro s
  induction s with
  | nil => intro c hc; simp [normalize] at hc
  | cons a l ih =>
    intro c hc
    rw [normalize_cons] at hc
    rcases List.mem_append.mp hc with h | h
    · by_cases hk : (pyIsAlnum a && a != '_') = true
      · rw [if_pos hk] at h
        obtain ⟨d, hd, rfl⟩ := List.mem_map.mp h
        have hd128 : d.toNat < 128 := by
          have := List.mem_filter.mp hd
          simpa using this.2
        rw [asciiLower_toNat]
        split <;> omega
      · rw [if_neg hk] at h
        simp at h
    · exact ih c h

/-- For ASCII input every character of `normalize`'s output is a lowercase
ASCII letter or digit. -/
theorem normalize_output_lower_alnum :
    ∀ (s : PyStr), (∀ c ∈ s, c.toNat < 128) →
      ∀ c ∈ normalize s, isLowerAlnumAscii c = true := by
  intro s
  induction s with
  | nil => intro _ c hc; simp [normalize] at hc
  | cons a l ih =>
    intro hascii c hc
    have ha : a.toNat < 128 := hascii a (List.mem_cons_self a l)
    rw [normalize_cons] at hc
    rcases List.mem_append.mp hc with h | h
    · by_cases hk : (pyIsAlnum a && a != '_') = true
      · rw [if_pos hk] at h
        have halnum : pyIsAlnum a = true := by
          have := hk
          rw [Bool.and_eq_true] at this
          exact this.1
        have hranges : (97 ≤ a.toNat ∧ a.toNat ≤ 122) ∨ (65 ≤ a.toNat ∧ a.toNat ≤ 90) ∨
            (48 ≤ a.toNat ∧ a.toNat ≤ 57) := by
          have := of_decide_eq_true halnum
          rcases this with h1 | h1 | h1 | h1 | h1
          · exact Or.inl h1
          · exact Or.inr (Or.inl h1)
          · exact Or.inr (Or.inr h1)
          · subst h1; simp at ha
          · subst h1; simp at ha
        have hnfkd : nfkd a = [a] := by unfold nfkd; rw [if_pos ha]
        rw [hnfkd] at h
        have hfilter : List.filter (fun d => decide (d.toNat < 128)) [a] = [a] := by
          simp [ha]
        rw [hfilter] at h
        simp only [List.map_cons, List.map_nil, List.mem_singleton] at h
        subst h
        rw [isLowerAlnumAscii, decide_eq_true_eq, asciiLower_toNat]
        split <;> omega
      · rw [if_neg hk] at h
        simp at h
    · exact ih (fun c hc => hascii c (List.mem_cons_of_mem a hc)) c h

/-- Strings made of lowercase ASCII letters and digits are fixed points of
`normalize`. -/
theorem normalize_fix_of_lower_alnum :
    ∀ (l : PyStr), (∀ c ∈ l, isLowerAlnumAscii c = true) → normalize l = l := by
  intro l
  induction l with
  | nil => intro _; rfl
  | cons a l ih =>
    intro h
    have ha : (97 ≤ a.toNat ∧ a.toNat ≤ 122) ∨ (48 ≤ a.toNat ∧ a.toNat ≤ 57) :=
      of_decide_eq_true (h a (List.mem_cons_self a l))
    rw [normalize_cons]
    have hne : (a != '_') = true := by
      rw [bne_iff_ne]
      intro heq
      have : a.toNat = 95 := by rw [heq]; rfl
      omega
    have halnum : pyIsAlnum a = true := by
      rw [pyIsAlnum, decide_eq_true_eq]
      rcases ha with h1 | h1
      · exact Or.inl h1
      · exact Or.inr (Or.inr (Or.inl h1))
    rw [if_pos (by rw [halnum, hne]; rfl)]
    have hnfkd : nfkd a = [a] := by unfold nfkd; rw [if_pos (by omega)]
    rw [hnfkd]
    have hfilter : List.filter (fun d => decide (d.toNat < 128)) [a] = [a] := by
      simp; omega
    rw [hfilter]
    have hfix : asciiLower a = a := by unfold asciiLower; rw [if_neg (by omega)]
    simp only [List.map_cons, List.map_nil]
    rw [hfix, ih (fun c hc => h c (List.mem_cons_of_mem a hc))]
    rfl

/-- On ASCII input, `normalize` is idempotent. -/
theorem normalize_idem_of_ascii (s : PyStr) (h : ∀ c ∈ s, c.toNat < 128) :
    normalize (normalize s) = normalize s :=
  normalize_fix_of_lower_alnum (normalize s) (normalize_output_lower_alnum s h)

/-! ### Facts about `sortResults` -/

/-- Zipping the computed distances back with the results pairs each result
with its score. -/
theorem sortResults_pairs (story : PyStr) (results : List SearchResult) :
    (results.map (fun r => levenshteinDistance (normalize story) (normalize r.title))).zip results
      = results.map (fun r => (score story r, r)) := by
  induction results with
  | nil => rfl
  | cons r rs ih => simp only [List.map_cons, List.zip_cons_cons, ih, score]

theorem sortResults_eq (story : PyStr) (results : List SearchResult) :
    sortResults story results =
      ((results.map (fun r => (score story r, r))).mergeSort
        (fun p q => p.1 ≤ q.1)).map (fun p => p.2) := by
  simp only [sortResults]
  rw [sortResults_pairs]

theorem pairLE_trans (a b c : Nat × SearchResult) :
    (decide (a.1 ≤ b.1)) = true → (decide (b.1 ≤ c.1)) = true →
      (decide (a.1 ≤ c.1)) = true := by
  simp only [decide_eq_true_eq]
  omega

theorem pairLE_total (a b : Nat × SearchResult) :
    ((decide (a.1 ≤ b.1)) || (decide (b.1 ≤ a.1))) = true := by
  simp only [Bool.or_eq_true, decide_eq_true_eq]
  omega

/-- `sortResults` permutes its input. -/
theorem sortResults_perm (story : PyStr) (results : List SearchResult) :
    (sortResults story results).Perm results := by
  rw [sortResults_eq]
  have hp := List.mergeSort_perm (results.map (fun r => (score story r, r)))
    (fun p q => p.1 ≤ q.1)
  have := hp.map (fun p : Nat × SearchResult => p.2)
  simpa [List.map_map, Function.comp_def] using this

/-- The output of `sortResults` is weakly increasing in the score. -/
theorem sortResults_sorted (story : PyStr) (results : List SearchResult) :
    (sortResults story results).Pairwise
      (fun r1 r2 => score story r1 ≤ score story r2) := by
  rw [sortResults_eq, List.pairwise_map]
  have hs := List.sorted_mergeSort pairLE_trans pairLE_total
    (results.map (fun r => (score story r, r)))
  have hmem : ∀ x ∈ (results.map (fun r => (score story r, r))).mergeSort
      (fun p q => p.1 ≤ q.1), x.1 = score story x.2 := by
    intro x hx
    rw [List.mem_mergeSort] at hx
    obtain ⟨r, _, rfl⟩ := List.mem_map.mp hx
    rfl
  refine List.Pairwise.imp_of_mem ?_ hs
  intro a b ha hb hab
  have hab' := of_decide_eq_true hab
  rwa [hmem a ha, hmem b hb] at hab'

/-- Projecting pairs to results turns score-filtering into key-filtering. -/
theorem filter_key_map_snd (story : PyStr) (d : Nat) :
    ∀ (l : List (Nat × SearchResult)), (∀ x ∈ l, x.1 = score story x.2) →
      (l.map (fun p => p.2)).filter (fun r => score story r == d) =
        (l.filter (fun x => x.1 == d)).map (fun p => p.2) := by
  intro l hl
  rw [List.filter_map]
  congr 1
  apply List.filter_congr
  intro x hx
  simp only [Function.comp_apply]
  rw [hl x hx]

/-- Stability of `sortResults`: the results carrying any fixed score `d`
appear in the output in the same order as in the input. -/
theorem sortResults_stable (story : PyStr) (results : List SearchResult) (d : Nat) :
    (sortResults story results).filter (fun r => score story r == d) =
      results.filter (fun r => score story r == d) := by
  rw [sortResults_eq]
  have hmemp : ∀ x ∈ results.map (fun r => (score story r, r)), x.1 = score story x.2 := by
    intro x hx
    obtain ⟨r, _, rfl⟩ := List.mem_map.mp hx
    rfl
  have hmems : ∀ x ∈ (results.map (fun r => (score story r, r))).mergeSort
      (fun p q => p.1 ≤ q.1), x.1 = score story x.2 :=
    fun x hx => hmemp x (List.mem_mergeSort.mp hx)
  have h1 : ((results.map (fun r => (score story r, r))).filter
      (fun x => x.1 == d)).Pairwise
      (fun p q : Nat × SearchResult => decide (p.1 ≤ q.1) = true) := by
    apply List.pairwise_of_forall_mem_list
    intro a ha b hb
    have ha' := (List.mem_filter.mp ha).2
    have hb' := (List.mem_filter.mp hb).2
    simp only [beq_iff_eq] at ha' hb'
    simp only [decide_eq_true_eq]
    omega
  have h2 : List.Sublist
      ((results.map (fun r => (score story r, r))).filter (fun x => x.1 == d))
      ((results.map (fun r => (score story r, r))).mergeSort (fun p q => p.1 ≤ q.1)) :=
    List.sublist_mergeSort pairLE_trans pairLE_total h1
      (List.filter_sublist (results.map (fun r => (score story r, r))))
  have h3 := h2.filter (fun x => x.1 == d)
  rw [List.filter_filter] at h3
  simp only [Bool.and_self] at h3
  have h4 := ((List.mergeSort_perm (results.map (fun r => (score story r, r)))
    (fun p q => p.1 ≤ q.1)).filter (fun x => x.1 == d)).length_eq
  have h5 : (results.map (fun r => (score story r, r))).filter (fun x => x.1 == d) =
      ((results.map (fun r => (score story r, r))).mergeSort
        (fun p q => p.1 ≤ q.1)).filter (fun x => x.1 == d) :=
    h3.eq_of_length (by omega)
  rw [filter_key_map_snd story d _ hmems, ← h5, ← filter_key_map_snd story d _ hmemp]
  simp [List.map_map, Function.comp_def]

/-! ## The claims -/

/-- Claim C1: for every pair of strings `a` and `b`,
`levenshteinDistance a b` equals the classic Levenshtein distance — it is
the least number of single-character insertions, deletions and
substitutions (cost 1 each) transforming `a` into `b`; the value lives in
`Nat`, hence is a non-negative integer. -/
theorem C1_levenshteinDistance_least_edits (a b : PyStr) :
    IsLeast {n | EditSeq a b n} (levenshteinDistance a b) := by
  rw [levenshteinDistance_eq_lev]
  exact lev_isLeast_editSeq a b

/-- Claim C2: `sortResults` returns a permutation of its input (same
multiset, merely reordered); in particular the empty input list yields the
empty output. -/
theorem C2_sortResults_perm (story : PyStr) (results : List SearchResult) :
    (sortResults story results).Perm results ∧ sortResults story [] = [] :=
  ⟨sortResults_perm story results, by simp [sortResults]⟩

/-- Claim C3: the output of `sortResults` is non-decreasing in the score
`levenshteinDistance (normalize q) (normalize title)`, and the sort is
stable — results of equal score keep their relative input order (stated as:
for each score value, filtering the output to that score gives exactly the
input filtered to that score, in the same order). -/
theorem C3_sortResults_sorted_stable (story : PyStr) (results : List SearchResult) :
    (sortResults story results).Pairwise
      (fun r1 r2 => score story r1 ≤ score story r2) ∧
    ∀ d : Nat, (sortResults story results).filter (fun r => score story r == d) =
      results.filter (fun r => score story r == d) :=
  ⟨sortResults_sorted story results, fun d => sortResults_stable story results d⟩

/-- Claim C4 is false as stated: `normalize` strips non-alphanumerics
before NFKD decomposition, so an alphanumeric character whose compatibility
decomposition contains ASCII punctuation survives into the output.
Concretely `⑴` (U+2474, `isalnum` true, NFKD `(1)`) normalizes to `(1)`,
which contains the non-alphanumeric characters `(` and `)`. -/
theorem C4_counterexample :
    normalize ['⑴'] = ['(', '1', ')'] ∧
      (normalize ['⑴']).all isLowerAlnumAscii = false := by decide

/-- Claim C4 (amended): `normalize` always succeeds and always produces
pure ASCII; for ASCII inputs the output is moreover all lowercase
alphanumeric; the empty string normalizes to the empty output; and
`normalize "Amélie!" = "amelie"`. -/
theorem C4_normalize_output (s : PyStr) :
    (∀ c ∈ normalize s, c.toNat < 128) ∧
    ((∀ c ∈ s, c.toNat < 128) → (normalize s).all isLowerAlnumAscii = true) ∧
    normalize [] = [] ∧
    normalize "Amélie!".toList = "amelie".toList := by
  refine ⟨normalize_output_ascii s, ?_, rfl, by decide⟩
  intro h
  rw [List.all_eq_true]
  exact fun c hc => normalize_output_lower_alnum s h c hc

theorem C4_witness :
    (∀ c ∈ ("Movie7".toList : PyStr), c.toNat < 128) ∧
      (normalize "Movie7".toList).all isLowerAlnumAscii = true :=
  ⟨by decide, (C4_normalize_output "Movie7".toList).2.1 (by decide)⟩

/-- Claim C5 is false as stated: `normalize` is not idempotent on all
strings.  `normalize "⑴" = "(1)"`, but normalizing again strips the
parentheses: `normalize "(1)" = "1"`. -/
theorem C5_counterexample :
    normalize (normalize ['⑴']) ≠ normalize ['⑴'] := by decide

/-- Claim C5 (amended): `normalize` is idempotent on ASCII inputs (its
output on such inputs is lowercase alphanumeric ASCII, which `normalize`
fixes). -/
theorem C5_normalize_idem_ascii (s : PyStr) (h : ∀ c ∈ s, c.toNat < 128) :
    normalize (normalize s) = normalize s :=
  normalize_idem_of_ascii s h

theorem C5_witness :
    (∀ c ∈ ("Amelie!".toList : PyStr), c.toNat < 128) ∧
      normalize (normalize "Amelie!".toList) = normalize "Amelie!".toList :=
  ⟨by decide, C5_normalize_idem_ascii "Amelie!".toList (by decide)⟩

/-- Claim C6: `levenshteinDistance` is symmetric; in particular the operand
swap performed when the first argument is longer does not change the
result. -/
theorem C6_levenshteinDistance_symm (a b : PyStr) :
    levenshteinDistance a b = levenshteinDistance b a := by
  rw [levenshteinDistance_eq_lev, levenshteinDistance_eq_lev, lev_symm]

/-- Claim C7: `levenshteinDistance a a = 0` and
`levenshteinDistance a "" = len a` (the instance `a = ""` gives distance 0
between two empty strings). -/
theorem C7_levenshteinDistance_self_empty (a : PyStr) :
    levenshteinDistance a a = 0 ∧ levenshteinDistance a [] = a.length := by
  rw [levenshteinDistance_eq_lev, levenshteinDistance_eq_lev]
  simp

/-- Claim C8 is false as stated: only `requests.exceptions.Timeout` is
caught, so a non-timeout transport failure propagates an exception instead
of returning `[]`; likewise an item whose link selector matches nothing
makes `link['href']` raise `TypeError`. -/
theorem C8_counterexample :
    search (fun _ => true) (fun _ b => b) [] FetchResult.failure =
      Except.error PyError.requestsError ∧
    search (fun _ => true) (fun _ b => b) []
        (FetchResult.page [⟨none, some "t".toList⟩]) =
      Except.error PyError.typeError := ⟨rfl, rfl⟩

/-- Claim C8 (amended): `search` returns `[]` without raising on timeout,
and an item selector matching nothing yields a normal (empty) result list;
but any non-timeout transport failure propagates an exception, as does an
item whose link or title selector matches nothing. -/
theorem C8_search_behaviour (isAbs : PyStr → Bool) (join : PyStr → PyStr → PyStr)
    (base : PyStr) :
    search isAbs join base FetchResult.timeout = Except.ok [] ∧
    search isAbs join base (FetchResult.page []) = Except.ok [] ∧
    search isAbs join base FetchResult.failure = Except.error PyError.requestsError ∧
    (∀ t rest, search isAbs join base (FetchResult.page (⟨none, t⟩ :: rest)) =
      Except.error PyError.typeError) ∧
    (∀ href rest, search isAbs join base (FetchResult.page (⟨some href, none⟩ :: rest)) =
      Except.error PyError.attributeError) :=
  ⟨rfl, rfl, rfl, fun _ _ => rfl, fun _ _ => rfl⟩

/-- Claim C9 is false as stated: only `args.site >= len(configs)` is
checked, so a negative site index — also out of range for the displayed
`[0] .. [n-1]` config list — is not reported: with 2 configs, index `-1`
silently searches config 1 (and ranking then runs), and index `-3` raises
`IndexError` from `configs[args.site]`. -/
theorem C9_counterexample :
    siteSelect (-1) 2 = SiteOutcome.searched 1 ∧
      siteSelect (-3) 2 = SiteOutcome.indexError := by decide

/-- Claim C9 (amended): for every site index `≥ len(configs)` the CLI
prints the out-of-range report and returns without searching any site and
without invoking the ranking core; negative indices are not range-checked:
those in `[-n, -1]` search the config at position `n + site`, and smaller
ones raise `IndexError`. -/
theorem C9_siteSelect (site : Int) (n : Nat) :
    ((n : Int) ≤ site → siteSelect site n = SiteOutcome.outOfBoundsReport) ∧
    (0 ≤ site → site < (n : Int) →
      siteSelect site n = SiteOutcome.searched site.toNat) ∧
    (site < 0 → 0 ≤ site + (n : Int) →
      siteSelect site n = SiteOutcome.searched (site + (n : Int)).toNat) ∧
    (site + (n : Int) < 0 → siteSelect site n = SiteOutcome.indexError) := by
  unfold siteSelect
  refine ⟨?_, ?_, ?_, ?_⟩
  · intro h; rw [if_pos h]
  · intro h1 h2; rw [if_neg (by omega), if_pos h1]
  · intro h1 h2; rw [if_neg (by omega), if_neg (by omega), if_pos h2]
  · intro h; rw [if_neg (by omega), if_neg (by omega), if_neg (by omega)]

theorem C9_witness :
    siteSelect 5 2 = SiteOutcome.outOfBoundsReport ∧
      siteSelect 1 2 = SiteOutcome.searched 1 :=
  ⟨(C9_siteSelect 5 2).1 (by decide),
    (C9_siteSelect 1 2).2.1 (by decide) (by decide)⟩

/-- Claim C10: `levenshteinDistance a b` is bounded by the length of the
longer string; equivalently, every score computed during ranking is at most
the length of the longer of the normalized query and the normalized title. -/
theorem C10_levenshteinDistance_le_max (a b : PyStr) :
    levenshteinDistance a b ≤ max a.length b.length ∧
    ∀ (story : PyStr) (r : SearchResult),
      score story r ≤ max (normalize story).length (normalize r.title).length := by
  constructor
  · rw [levenshteinDistance_eq_lev]
    exact lev_le_max a b
  · intro story r
    rw [score, levenshteinDistance_eq_lev]
    exact lev_le_max _ _

end Gratflix
